import Mathlib

/-!
Verification of the 2D rigid-transform and unicycle-kinematics notebooks.

The definitions below are shallow embeddings of the Python functions in
`src/perception/CoordinateTransformExercise.ipynb` and
`src/control/VehicleKinematicsExamples.ipynb`, with numpy float arrays
modelled as real-valued matrices and vectors.
-/

open Real Matrix

/-- `rotation_2d` from `CoordinateTransformExercise.ipynb` (corrected version):
`np.array([[cos(theta), -sin(theta)], [sin(theta), cos(theta)]])`. -/
noncomputable def rotation_2d (theta : ℝ) : Matrix (Fin 2) (Fin 2) ℝ :=
  !![Real.cos theta, -Real.sin theta; Real.sin theta, Real.cos theta]

/-- `rotation_2d` from the historical version of
`CoordinateTransformExercise.ipynb`:
`np.linalg.inv(np.array([[cos(theta), sin(theta)], [-sin(theta), cos(theta)]]))`,
a general matrix inversion applied to the transposed rotation matrix. -/
noncomputable def rotation_2d_legacy (theta : ℝ) : Matrix (Fin 2) (Fin 2) ℝ :=
  (!![Real.cos theta, Real.sin theta; -Real.sin theta, Real.cos theta])⁻¹

/-- `rigid_transformation2d` from `CoordinateTransformExercise.ipynb`:
`np.block([[rotation_2d(theta), xi], [np.zeros((1,2)), 1.0]])`, the 3×3
matrix assembled from the rotation block, the translation column and the
row `[0, 0, 1]`. -/
noncomputable def rigid_transformation2d (theta : ℝ) (xi : Fin 2 → ℝ) :
    Matrix (Fin 3) (Fin 3) ℝ :=
  !![rotation_2d theta 0 0, rotation_2d theta 0 1, xi 0;
     rotation_2d theta 1 0, rotation_2d theta 1 1, xi 1;
     0, 0, 1]

/-- `np.linalg.inv` applied to a homogeneous transform, as in the notebook
cell `T_AO = np.linalg.inv(T_OA)`. -/
noncomputable def invert_transform (T : Matrix (Fin 3) (Fin 3) ℝ) : Matrix (Fin 3) (Fin 3) ℝ :=
  T⁻¹

lemma rotation_mul_rotation_neg (theta : ℝ) :
    rotation_2d theta * rotation_2d (-theta) = 1 := by
  ext i j
  fin_cases i <;> fin_cases j <;>
    simp [rotation_2d, Matrix.mul_apply, Fin.sum_univ_two, Matrix.one_apply] <;>
    nlinarith [sin_sq_add_cos_sq theta]

/-- C1: for every real `theta`, `rotation_2d theta` is exactly the matrix
`[[cos theta, -sin theta], [sin theta, cos theta]]`. -/
theorem rotation_2d_eq_standard_rotation (theta : ℝ) :
    rotation_2d theta =
      !![Real.cos theta, -Real.sin theta; Real.sin theta, Real.cos theta] :=
  rfl

/-- C5: composing two rotation matrices by matrix multiplication composes
their angles by addition: `rotation_2d θ₁ * rotation_2d θ₂ = rotation_2d (θ₁+θ₂)`. -/
theorem rotation_2d_mul_rotation_2d (theta1 theta2 : ℝ) :
    rotation_2d theta1 * rotation_2d theta2 = rotation_2d (theta1 + theta2) := by
  ext i j
  fin_cases i <;> fin_cases j <;>
    simp [rotation_2d, Matrix.mul_apply, Fin.sum_univ_two, Real.cos_add,
      Real.sin_add] <;>
    ring

/-- C6: every `rotation_2d theta` is orthonormal — its transpose equals its
inverse and equals `rotation_2d (-theta)` — and its determinant equals 1. -/
theorem rotation_2d_orthonormal (theta : ℝ) :
    (rotation_2d theta)ᵀ = (rotation_2d theta)⁻¹ ∧
      (rotation_2d theta)⁻¹ = rotation_2d (-theta) ∧
      (rotation_2d theta).det = 1 := by
  have hinv : (rotation_2d theta)⁻¹ = rotation_2d (-theta) :=
    Matrix.inv_eq_right_inv (rotation_mul_rotation_neg theta)
  refine ⟨?_, hinv, ?_⟩
  · rw [hinv]
    ext i j
    fin_cases i <;> fin_cases j <;>
      simp [rotation_2d, Matrix.transpose_apply]
  · simp [rotation_2d, Matrix.det_fin_two_of]
    nlinarith [sin_sq_add_cos_sq theta]

/-- C8: the historical rotation construction (general inverse of
`[[cos θ, sin θ], [-sin θ, cos θ]]`) equals the corrected direct
construction `[[cos θ, -sin θ], [sin θ, cos θ]]`: the extra inversion is
mathematically redundant. -/
theorem rotation_2d_legacy_eq_rotation_2d (theta : ℝ) :
    rotation_2d_legacy theta = rotation_2d theta := by
  apply Matrix.inv_eq_right_inv
  ext i j
  fin_cases i <;> fin_cases j <;>
    simp [rotation_2d, Matrix.mul_apply, Fin.sum_univ_two, Matrix.one_apply] <;>
    nlinarith [sin_sq_add_cos_sq theta]

lemma rigid_mul_rigid_rev (theta : ℝ) (xi : Fin 2 → ℝ) :
    rigid_transformation2d theta xi *
      rigid_transformation2d (-theta)
        (fun i => -((rotation_2d (-theta)).mulVec xi i)) = 1 := by
  ext i j
  fin_cases i <;> fin_cases j <;>
    simp [rigid_transformation2d, rotation_2d, Matrix.mul_apply,
      Fin.sum_univ_three, Matrix.mulVec, Matrix.dotProduct, Fin.sum_univ_two,
      Matrix.one_apply] <;>
    first
      | nlinarith [sin_sq_add_cos_sq theta]
      | linear_combination (-(xi 0)) * sin_sq_add_cos_sq theta
      | linear_combination (-(xi 1)) * sin_sq_add_cos_sq theta

lemma rigid_rev_mul_rigid (theta : ℝ) (xi : Fin 2 → ℝ) :
    rigid_transformation2d (-theta)
        (fun i => -((rotation_2d (-theta)).mulVec xi i)) *
      rigid_transformation2d theta xi = 1 := by
  ext i j
  fin_cases i <;> fin_cases j <;>
    simp [rigid_transformation2d, rotation_2d, Matrix.mul_apply,
      Fin.sum_univ_three, Matrix.mulVec, Matrix.dotProduct, Fin.sum_univ_two,
      Matrix.one_apply] <;>
    nlinarith [sin_sq_add_cos_sq theta]

/-- C2: `rigid_transformation2d theta xi` has `rotation_2d theta` as its
top-left 2×2 block, `xi` as its top-right column, and `[0, 0, 1]` as its
bottom row. -/
theorem rigid_transformation2d_block_structure (theta : ℝ) (xi : Fin 2 → ℝ) :
    (∀ i j : Fin 2,
        rigid_transformation2d theta xi i.castSucc j.castSucc =
          rotation_2d theta i j) ∧
      (∀ i : Fin 2, rigid_transformation2d theta xi i.castSucc 2 = xi i) ∧
      rigid_transformation2d theta xi 2 0 = 0 ∧
      rigid_transformation2d theta xi 2 1 = 0 ∧
      rigid_transformation2d theta xi 2 2 = 1 := by
  refine ⟨?_, ?_, rfl, rfl, rfl⟩
  · intro i j
    fin_cases i <;> fin_cases j <;> rfl
  · intro i
    fin_cases i <;> rfl

/-- C4: for every transform `T` built by `rigid_transformation2d`, inverting
twice gives `T` back, `T` times its inverse is the 3×3 identity, the inverse
is itself the homogeneous transform for the reverse frame relationship
(rotation by `-theta`, translation `-R(-theta)·xi`), and applying `T` then
its inverse returns every point to its original coordinates. -/
theorem invert_transform_round_trip (theta : ℝ) (xi : Fin 2 → ℝ) :
    invert_transform (invert_transform (rigid_transformation2d theta xi)) =
        rigid_transformation2d theta xi ∧
      rigid_transformation2d theta xi *
          invert_transform (rigid_transformation2d theta xi) = 1 ∧
      invert_transform (rigid_transformation2d theta xi) =
        rigid_transformation2d (-theta)
          (fun i => -((rotation_2d (-theta)).mulVec xi i)) ∧
      ∀ p : Fin 3 → ℝ,
        (invert_transform (rigid_transformation2d theta xi)).mulVec
            ((rigid_transformation2d theta xi).mulVec p) = p := by
  have hinv : (rigid_transformation2d theta xi)⁻¹ =
      rigid_transformation2d (-theta)
        (fun i => -((rotation_2d (-theta)).mulVec xi i)) :=
    Matrix.inv_eq_right_inv (rigid_mul_rigid_rev theta xi)
  have hinv2 : (rigid_transformation2d (-theta)
      (fun i => -((rotation_2d (-theta)).mulVec xi i)))⁻¹ =
      rigid_transformation2d theta xi :=
    Matrix.inv_eq_right_inv (rigid_rev_mul_rigid theta xi)
  refine ⟨?_, ?_, hinv, ?_⟩
  · show ((rigid_transformation2d theta xi)⁻¹)⁻¹ = _
    rw [hinv, hinv2]
  · show rigid_transformation2d theta xi * (rigid_transformation2d theta xi)⁻¹ = 1
    rw [hinv]
    exact rigid_mul_rigid_rev theta xi
  · intro p
    show ((rigid_transformation2d theta xi)⁻¹).mulVec _ = p
    rw [hinv, Matrix.mulVec_mulVec, rigid_rev_mul_rigid theta xi,
      Matrix.one_mulVec]

/-- A vehicle state `(x, y, theta)` as passed to `unicycle_motion` in
`VehicleKinematicsExamples.ipynb`. -/
abbrev UnicycleState : Type := ℝ × ℝ × ℝ

/-- `unicycle_motion` from `VehicleKinematicsExamples.ipynb`:
```
def unicycle_motion(t, x, u_fn=lambda t, x : [0,0]):
    [v, omega] = u_fn(t, x)
    theta = x[2]
    return [v*cos(theta), v*sin(theta), omega]
```
The destructuring assignment `[v, omega] = u_fn(t, x)` raises a
`ValueError` when the control function's output does not have exactly two
elements; that failure is modelled as `Except.error`. -/
noncomputable def unicycle_motion (t : ℝ) (x : UnicycleState)
    (u_fn : ℝ → UnicycleState → List ℝ) : Except String UnicycleState :=
  match u_fn t x with
  | [v, omega] =>
      .ok (v * Real.cos x.2.2, v * Real.sin x.2.2, omega)
  | _ => .error "ValueError: control output must have exactly 2 values"

/-- The default control input of `unicycle_motion`:
`u_fn=lambda t, x : [0,0]`. -/
def default_u_fn : ℝ → UnicycleState → List ℝ := fun _ _ => [0, 0]

/-- C3: whenever the control function yields `[v, omega]`, `unicycle_motion`
returns exactly `(v·cos theta, v·sin theta, omega)`; with the default
control function the derivative is `(0, 0, 0)`. -/
theorem unicycle_motion_eq_model (t : ℝ) (x : UnicycleState)
    (u_fn : ℝ → UnicycleState → List ℝ) (v omega : ℝ)
    (h : u_fn t x = [v, omega]) :
    unicycle_motion t x u_fn =
        .ok (v * Real.cos x.2.2, v * Real.sin x.2.2, omega) ∧
      unicycle_motion t x default_u_fn = .ok (0, 0, 0) := by
  constructor
  · rw [unicycle_motion, h]
  · rw [unicycle_motion]
    show Except.ok (0 * Real.cos x.2.2, 0 * Real.sin x.2.2, (0 : ℝ)) = _
    rw [zero_mul, zero_mul]

theorem unicycle_motion_eq_model_witness :
    unicycle_motion 0 (0, 0, 0) (fun _ _ => [1, 2]) =
        .ok (1 * Real.cos (0 : ℝ × ℝ × ℝ).2.2,
          1 * Real.sin (0 : ℝ × ℝ × ℝ).2.2, 2) ∧
      unicycle_motion 0 (0, 0, 0) default_u_fn = .ok (0, 0, 0) :=
  unicycle_motion_eq_model 0 (0, 0, 0) (fun _ _ => [1, 2]) 1 2 rfl

/-- C9: when the control function returns a list whose length is not 2,
`unicycle_motion` fails with an error instead of returning a derivative. -/
theorem unicycle_motion_wrong_shape_errors (t : ℝ) (x : UnicycleState)
    (u_fn : ℝ → UnicycleState → List ℝ) (h : (u_fn t x).length ≠ 2) :
    ∃ msg, unicycle_motion t x u_fn = .error msg := by
  rw [unicycle_motion]
  rcases hu : u_fn t x with _ | ⟨a, _ | ⟨b, _ | ⟨c, l⟩⟩⟩
  · exact ⟨_, rfl⟩
  · exact ⟨_, rfl⟩
  · exact absurd (by rw [hu]; rfl) h
  · exact ⟨_, rfl⟩

theorem unicycle_motion_wrong_shape_errors_witness :
    ∃ msg, unicycle_motion 0 (0, 0, 0) (fun _ _ => [1]) = .error msg :=
  unicycle_motion_wrong_shape_errors 0 (0, 0, 0) (fun _ _ => [1]) (by decide)

/-- C10: the derivative does not depend on the vehicle's position — if the
control function's output at time `t` does not depend on the state, then two
states agreeing in their heading `theta` give equal derivatives. -/
theorem unicycle_motion_position_independent (t : ℝ)
    (px py theta px' py' : ℝ) (u_fn : ℝ → UnicycleState → List ℝ)
    (h : ∀ s s' : UnicycleState, u_fn t s = u_fn t s') :
    unicycle_motion t (px, py, theta) u_fn =
      unicycle_motion t (px', py', theta) u_fn := by
  rw [unicycle_motion, unicycle_motion, h (px, py, theta) (px', py', theta)]

theorem unicycle_motion_position_independent_witness :
    unicycle_motion 2 (0, 1, 5) (fun t _ => [t, 1]) =
      unicycle_motion 2 (3, 4, 5) (fun t _ => [t, 1]) :=
  unicycle_motion_position_independent 2 0 1 5 3 4 (fun t _ => [t, 1])
    (fun _ _ => rfl)

/-- Modelled from the spec: the notebook integrates `unicycle_motion` with
`scipy.integrate.solve_ivp(model_fn, t_span, x_0, method='RK23')`, whose
implementation is a third-party adaptive-step explicit Runge–Kutta solver
and is not part of this repository. One explicit Runge–Kutta 2(3)
(Bogacki–Shampine) step of size `h` at time `t`; an error raised by the
derivative function propagates, as a Python exception would. -/
noncomputable def rk23_step
    (f : ℝ → UnicycleState → Except String UnicycleState)
    (t h : ℝ) (y : UnicycleState) : Except String UnicycleState :=
  match f t y with
  | .error e => .error e
  | .ok k1 =>
      match f (t + h / 2) (y + (h / 2) • k1) with
      | .error e => .error e
      | .ok k2 =>
          match f (t + 3 * h / 4) (y + (3 * h / 4) • k2) with
          | .error e => .error e
          | .ok k3 =>
              .ok (y + (2 * h / 9) • k1 + (h / 3) • k2 + (4 * h / 9) • k3)

/-- Modelled from the spec: `integrate_trajectory` (the notebook's
`solve_ivp` call) runs the solver over the adaptively chosen step sequence
`steps` (pairs of current time and step size, picked by the solver's
step-size control, which is the collaborator's responsibility) and returns
the ordered list of sampled states starting at the initial state. -/
noncomputable def integrate_trajectory
    (f : ℝ → UnicycleState → Except String UnicycleState) :
    List (ℝ × ℝ) → UnicycleState → Except String (List UnicycleState)
  | [], y => .ok [y]
  | (t, h) :: steps, y =>
      match rk23_step f t h y with
      | .error e => .error e
      | .ok y2 =>
          match integrate_trajectory f steps y2 with
          | .error e => .error e
          | .ok tail => .ok (y :: tail)

lemma rk23_step_of_zero_derivative
    (f : ℝ → UnicycleState → Except String UnicycleState)
    (hf : ∀ t y, f t y = .ok (0, 0, 0)) (t h : ℝ) (y : UnicycleState) :
    rk23_step f t h y = .ok y := by
  have hz : ((0, 0, 0) : UnicycleState) = 0 := rfl
  simp only [rk23_step, hf, hz, smul_zero, add_zero]

lemma unicycle_motion_default_zero (t : ℝ) (x : UnicycleState) :
    unicycle_motion t x default_u_fn = .ok (0, 0, 0) := by
  rw [unicycle_motion]
  show Except.ok (0 * Real.cos x.2.2, 0 * Real.sin x.2.2, (0 : ℝ)) = _
  rw [zero_mul, zero_mul]

/-- C7: integrating `unicycle_motion` with its default zero control over any
step sequence from any initial state yields the constant trajectory: every
sampled state equals the initial state. -/
theorem integrate_trajectory_zero_control_constant
    (steps : List (ℝ × ℝ)) (y0 : UnicycleState) :
    integrate_trajectory (fun t x => unicycle_motion t x default_u_fn)
        steps y0 =
      .ok (List.replicate (steps.length + 1) y0) := by
  induction steps with
  | nil => rfl
  | cons th rest ih =>
      obtain ⟨t, h⟩ := th
      have hstep := rk23_step_of_zero_derivative
        (fun t x => unicycle_motion t x default_u_fn)
        (fun t x => unicycle_motion_default_zero t x) t h y0
      simp only [integrate_trajectory, hstep, ih, List.length_cons,
        List.replicate_succ]
